import Mathlib

/-!
Verification of the `calr` terminal-calendar program.

The development shallowly embeds the two source files (`src/lib.rs` and
`src/utils/date_util.rs`) into Lean.  Calendar dates are modelled as
`Date` records under the proleptic Gregorian calendar (the model of
chrono's `NaiveDate`); strings are Lean `String`s, and the Rust
formatting directives (`{:^20}`, `{:>2}`, `{:width$}`) are embedded by
their character-count padding semantics, which is exactly what Rust's
formatter implements.
-/

set_option linter.unnecessarySeqFocus false

deriving instance DecidableEq for Except

namespace Calr

/-- Model of chrono's `NaiveDate`: a (year, month, day) triple under the
proleptic Gregorian calendar. -/
structure Date where
  year : Int
  month : Nat
  day : Nat
deriving DecidableEq, Repr

/-- Gregorian leap-year test (the rule implemented by chrono). -/
def isLeap (y : Int) : Bool :=
  y % 4 == 0 && (y % 100 != 0 || y % 400 == 0)

/-- Length of a Gregorian month (the month lengths realised by chrono's
`NaiveDate`); `0` for an out-of-range month index. -/
def monthLen (y : Int) (m : Nat) : Nat :=
  match m with
  | 1 => 31
  | 2 => if isLeap y then 29 else 28
  | 3 => 31
  | 4 => 30
  | 5 => 31
  | 6 => 30
  | 7 => 31
  | 8 => 31
  | 9 => 30
  | 10 => 31
  | 11 => 30
  | 12 => 31
  | _ => 0

/-- Days of the year strictly before month `m` in a non-leap year. -/
def cumDaysNL (m : Nat) : Nat :=
  match m with
  | 1 => 0
  | 2 => 31
  | 3 => 59
  | 4 => 90
  | 5 => 120
  | 6 => 151
  | 7 => 181
  | 8 => 212
  | 9 => 243
  | 10 => 273
  | 11 => 304
  | 12 => 334
  | _ => 0

/-- Days of year `y` strictly before month `m`. -/
def cumDays (y : Int) (m : Nat) : Nat :=
  cumDaysNL m + (if 2 < m ∧ isLeap y then 1 else 0)

/-- Number of Gregorian leap years in `[1, t]` (proleptically extended to
negative `t`). -/
def leaps (t : Int) : Int :=
  t / 4 - t / 100 + t / 400

/-- Rata-die day number of a date: `⟨1, 1, 1⟩` maps to `1`.  This is the
linear day count underlying chrono's day arithmetic. -/
def rataDie (d : Date) : Int :=
  365 * (d.year - 1) + leaps (d.year - 1) + (cumDays d.year d.month : Int) + (d.day : Int)

@[simp] theorem year_mk (y : Int) (m d : Nat) : (Date.mk y m d).year = y := rfl

@[simp] theorem month_mk (y : Int) (m d : Nat) : (Date.mk y m d).month = m := rfl

@[simp] theorem day_mk (y : Int) (m d : Nat) : (Date.mk y m d).day = d := rfl

/-- Validity of a date: month in range and day within the month. -/
def Valid (d : Date) : Prop :=
  1 ≤ d.month ∧ d.month ≤ 12 ∧ 1 ≤ d.day ∧ d.day ≤ monthLen d.year d.month

instance (d : Date) : Decidable (Valid d) := by
  unfold Valid; infer_instance

theorem Valid_mk (y : Int) (m d : Nat) :
    Valid ⟨y, m, d⟩ ↔ (1 ≤ m ∧ m ≤ 12 ∧ 1 ≤ d ∧ d ≤ monthLen y m) := Iff.rfl

/-- Next calendar day (model of chrono's `succ_opt`). -/
def succDate (d : Date) : Date :=
  if d.day < monthLen d.year d.month then ⟨d.year, d.month, d.day + 1⟩
  else if d.month < 12 then ⟨d.year, d.month + 1, 1⟩
  else ⟨d.year + 1, 1, 1⟩

/-- Previous calendar day (model of chrono's `pred_opt`). -/
def predDate (d : Date) : Date :=
  if 1 < d.day then ⟨d.year, d.month, d.day - 1⟩
  else if 1 < d.month then ⟨d.year, d.month - 1, monthLen d.year (d.month - 1)⟩
  else ⟨d.year - 1, 12, 31⟩

/-- Chronological order on dates (model of `NaiveDate`'s `Ord`, which is
lexicographic on year, month, day). -/
def dateLe (a b : Date) : Bool :=
  decide (a.year < b.year) ||
    (a.year == b.year &&
      (decide (a.month < b.month) || (a.month == b.month && decide (a.day ≤ b.day))))

/-- Strict chronological order on dates, as a proposition. -/
def LexLt (a b : Date) : Prop :=
  a.year < b.year ∨ (a.year = b.year ∧ (a.month < b.month ∨ (a.month = b.month ∧ a.day < b.day)))

instance (a b : Date) : Decidable (LexLt a b) := by
  unfold LexLt; infer_instance

/-- Weekday number with Sunday = 1 … Saturday = 7 (model of chrono's
`Weekday::number_from_sunday`; `0001-01-01` was a Monday). -/
def numberFromSunday (d : Date) : Nat :=
  (rataDie d % 7).toNat + 1

/-- Embedding of `last_day_in_month` from `date_util.rs`: the first day of
the following month, stepped back one day. -/
def last_day_in_month (year : Int) (month : Nat) : Date :=
  if month == 12 then predDate ⟨year + 1, 1, 1⟩
  else predDate ⟨year, month + 1, 1⟩

/-- Embedding of the `MONTH_NAMES` constant from `date_util.rs`. -/
def MONTH_NAMES : List String :=
  ["January", "February", "March", "April", "May", "June",
   "July", "August", "September", "October", "November", "December"]

/-- String of `n` spaces. -/
def spacesStr (n : Nat) : String :=
  String.mk (List.replicate n ' ')

/-- Rust's `{:^w}` directive: centre `s` in a `w`-character field (extra
space goes to the right), by character count. -/
def padCenter (w : Nat) (s : String) : String :=
  spacesStr ((w - s.length) / 2) ++ s ++ spacesStr (w - s.length - (w - s.length) / 2)

/-- Rust's `{:w}` directive on strings: left-justify to `w` characters. -/
def padTo (w : Nat) (s : String) : String :=
  s ++ spacesStr (w - s.length)

/-- Rust's `{:>2}` directive on a number: right-justify in 2 characters. -/
def fmt2 (n : Nat) : String :=
  spacesStr (2 - (toString n).length) ++ toString n

/-- The reverse-video emphasis emitted by `ansi_term`'s
`Style::new().reverse().paint(..)`. -/
def hl (s : String) : String :=
  "\x1b[7m" ++ s ++ "\x1b[0m"

/-- One rendered day cell of `format_month`: the 2-character numeral,
wrapped in the emphasis escape codes when the day is `today`. -/
def dayCell (year : Int) (month : Nat) (today : Date) (num : Nat) : String :=
  if year == today.year && month == today.month && num == today.day then hl (fmt2 num)
  else fmt2 num

/-- Rust's `slice::chunks(7)`: split a list into runs of 7, the last run
possibly shorter. -/
def chunks7 {α : Type} : List α → List (List α)
  | [] => []
  | a :: b :: c :: d :: e :: f :: g :: rest => [a, b, c, d, e, f, g] :: chunks7 rest
  | rest => [rest]

/-- Embedding of `format_month` from `date_util.rs`. -/
def format_month (year : Int) (month : Nat) (add_year : Bool) (today : Date) : List String :=
  let month_name := MONTH_NAMES.getD (month - 1) ""
  let header :=
    padCenter 20 (if add_year then month_name ++ " " ++ toString year else month_name) ++ "  "
  let first : Date := ⟨year, month, 1⟩
  let last := last_day_in_month year month
  let blanks := (List.range (numberFromSunday first - 1)).map (fun _ => "  ")
  let cells := (List.range' first.day (last.day + 1 - first.day)).map (dayCell year month today)
  let days := blanks ++ cells
  let weeks := (chunks7 days).map (fun week => padTo 20 (String.intercalate " " week) ++ "  ")
  let lines := header :: "Su Mo Tu We Th Fr Sa  " :: weeks
  lines ++ (List.range (8 - lines.length)).map (fun _ => spacesStr 22)

/-- Character scanner underlying `displayWidth`: counts characters outside
ANSI escape sequences (an escape starts at ESC and runs to the final
`m`). -/
def ctlGo : Bool → List Char → Nat
  | _, [] => 0
  | true, c :: rest => if c = 'm' then ctlGo false rest else ctlGo true rest
  | false, c :: rest => if c = '\x1b' then ctlGo true rest else 1 + ctlGo false rest

/-- Display width of a string: the number of printable characters, with
ANSI style escape sequences counted as zero-width. -/
def displayWidth (s : String) : Nat :=
  ctlGo false s.data

/-- Rust's `slice::chunks(3)`: split a list into runs of 3, the last run
possibly shorter. -/
def chunks3 {α : Type} : List α → List (List α)
  | [] => []
  | a :: b :: c :: rest => [a, b, c] :: chunks3 rest
  | rest => [rest]

/-- Embedding of itertools' `izip!` on three lists: zip truncating to the
shortest. -/
def izip3 {α : Type} : List α → List α → List α → List (α × α × α)
  | a :: as, b :: bs, c :: cs => (a, b, c) :: izip3 as bs cs
  | _, _, _ => []

/-- Loop body of `print_chunk_tree_month`: `i` is the 0-based chunk index
from `enumerate()`; a complete chunk prints its zipped lines and, when
`i < 3`, one empty separator line; an incomplete chunk prints nothing. -/
def pctmGo : Nat → List (List (List String)) → List String
  | _, [] => []
  | i, chunk :: rest =>
    (match chunk with
     | [m1, m2, m3] =>
       (izip3 m1 m2 m3).map (fun t => t.1 ++ t.2.1 ++ t.2.2) ++
         (if i < 3 then [""] else [])
     | _ => []) ++ pctmGo (i + 1) rest

/-- Embedding of `print_chunk_tree_month` from `lib.rs`; the returned list
holds the printed lines in order (an empty string is one blank separator
line). -/
def print_chunk_tree_month (calendar : List (List String)) : List String :=
  pctmGo 0 (chunks3 calendar)

/-- Embedding of Rust's `str::parse::<u32>()`: an optional `+` sign
followed by one or more ASCII digits, rejecting values that overflow
`u32`. -/
def parseU32 (s : String) : Option Nat :=
  let cs := s.data
  let cs2 := match cs with
    | '+' :: rest => rest
    | _ => cs
  if cs2 ≠ [] ∧ cs2.all (fun c => c.isDigit) then
    let v := cs2.foldl (fun a c => a * 10 + (c.toNat - 48)) 0
    if v < 4294967296 then some v else none
  else none

/-- Embedding of Rust's `str::to_lowercase` (character-wise lowering; the
month names and inputs of interest are ASCII). -/
def toLowerStr (s : String) : String :=
  String.mk (s.data.map Char.toLower)

/-- Embedding of Rust's `str::starts_with` on strings. -/
def startsWithStr (s pre : String) : Bool :=
  pre.data.isPrefixOf s.data

/-- The filter-then-collect month-name matching of `parse_month`: the
1-based indices of the month names of which `lower` is a prefix, after
lowercasing. -/
def monthMatches (lower : String) : List Nat :=
  MONTH_NAMES.enum.filterMap
    (fun p => if startsWithStr (toLowerStr p.2) lower then some (p.1 + 1) else none)

/-- Embedding of `parse_month` from `date_util.rs`. -/
def parse_month (month : String) : Except String Nat :=
  match parseU32 month with
  | some num =>
    if 1 ≤ num ∧ num ≤ 12 then Except.ok num
    else Except.error ("month \"" ++ month ++ "\" not in the range 1 through 12")
  | none =>
    let lower := toLowerStr month
    let found := monthMatches lower
    if found.length = 1 then Except.ok (found.getD 0 0)
    else Except.error ("Invalid month \"" ++ month ++ "\"")

/-- Total month index of a (year, month) pair, the quantity chrono's
`Months` arithmetic works on. -/
def monthsTotal (year : Int) (month : Nat) : Int :=
  12 * year + ((month : Int) - 1)

/-- Date with the given total month index and (clamped) day — the model of
chrono's `+ Months::new(n)` / `- Months::new(n)` arithmetic. -/
def ofMonthsTotal (t : Int) (day : Nat) : Date :=
  let y := t / 12
  let m := (t % 12).toNat + 1
  ⟨y, m, min day (monthLen y m)⟩

/-- Embedding of `get_before_month` from `date_util.rs`:
`NaiveDate::from_ymd(year, month, 1) - Months::new(n)`. -/
def get_before_month (n : Nat) (year : Int) (month : Nat) : Date :=
  ofMonthsTotal (monthsTotal year month - n) 1

/-- Embedding of `get_days_from_ym` from `date_util.rs`: the signed day
distance from the first of the month to the first of the next month. -/
def get_days_from_ym (year : Int) (month : Nat) : Int :=
  rataDie ⟨if month == 12 then year + 1 else year, if month == 12 then 1 else month + 1, 1⟩ -
    rataDie ⟨year, month, 1⟩

/-- Embedding of `get_after_month` from `date_util.rs`. -/
def get_after_month (n : Nat) (year : Int) (month : Nat) : Date :=
  let f := ofMonthsTotal (monthsTotal year month + n) 1
  ⟨f.year, f.month, (get_days_from_ym f.year f.month).toNat⟩

/-- The infinite day stream of `get_year_month`: element `i` is
`start_date + Duration::days(i)`. -/
def dayStream (start : Date) (i : Nat) : Date :=
  Nat.iterate succDate i start

/-- Fuel sufficient to exhaust the `take_while` in `get_year_month`: one
more than the signed day distance from `start` to `endD`. -/
def fuelFor (start endD : Date) : Nat :=
  (rataDie endD + 1 - rataDie start).toNat

/-- The `calendar` vector built inside `get_year_month`: the prefix of the
day stream for which `date <= end_date`, truncated at `fuel` elements.
The theorems show the value is fuel-independent from `fuelFor` on, which
is exactly the termination of the unbounded `(0..)` iterator under
`take_while`. -/
def calendarUpTo (start endD : Date) (fuel : Nat) : List Date :=
  ((List.range fuel).map (fun i => dayStream start i)).takeWhile (fun d => dateLe d endD)

/-- Embedding of `get_year_month` from `date_util.rs`: keep the
first-of-month days of the enumerated range and project to (year,
month). -/
def get_year_month (start_date end_date : Date) : List (Int × Nat) :=
  ((calendarUpTo start_date end_date (fuelFor start_date end_date)).filter
      (fun d => d.day == 1)).map
    (fun d => (d.year, d.month))

/-- Short-circuiting `all` over a fallible (possibly panicking) predicate:
the model of Rust's `Iterator::all` whose closure may panic (`none`). -/
def allOpt {α : Type} (f : α → Option Bool) : List α → Option Bool
  | [] => some true
  | x :: xs =>
    match f x with
    | none => none
    | some false => some false
    | some true => allOpt f xs

/-- Embedding of `is_all_same_year` from `date_util.rs`: the closure body
indexes `year_months[0]`, which panics (`none`) on an empty list — but the
closure only runs on elements of the list. -/
def is_all_same_year (year_months : List (Int × Nat)) : Option Bool :=
  allOpt (fun p => (year_months.get? 0).map (fun h => p.1 == h.1)) year_months

/-! ### Basic facts about the calendar model -/

theorem isLeap_iff (y : Int) :
    isLeap y = true ↔ (y % 4 = 0 ∧ (y % 100 ≠ 0 ∨ y % 400 = 0)) := by
  simp [isLeap]

theorem monthLen_pos (y : Int) (m : Nat) (h1 : 1 ≤ m) (h2 : m ≤ 12) :
    1 ≤ monthLen y m := by
  interval_cases m <;> (simp only [monthLen]; first | omega | (split <;> omega))

/-! ### C5 -/

/-- C5: for every year `y`, `last_day_in_month y 2` returns day 29 iff `y`
is a leap year (divisible by 4, and not by 100 unless also by 400), and
otherwise returns day 28. -/
theorem last_day_in_month_february (y : Int) :
    ((last_day_in_month y 2).day = 29 ↔ (y % 4 = 0 ∧ (y % 100 ≠ 0 ∨ y % 400 = 0)))
    ∧ (last_day_in_month y 2).day =
        (if y % 4 = 0 ∧ (y % 100 ≠ 0 ∨ y % 400 = 0) then 29 else 28) := by
  have h : (last_day_in_month y 2).day = monthLen y 2 := by
    simp [last_day_in_month, predDate, monthLen]
  have hm : monthLen y 2 = if isLeap y = true then 29 else 28 := rfl
  rw [h, hm]
  by_cases hc : y % 4 = 0 ∧ (y % 100 ≠ 0 ∨ y % 400 = 0)
  · rw [if_pos ((isLeap_iff y).mpr hc), if_pos hc]
    exact ⟨iff_of_true rfl hc, rfl⟩
  · have hnl : ¬ isLeap y = true := fun hb => hc ((isLeap_iff y).mp hb)
    rw [if_neg hnl, if_neg hc]
    exact ⟨iff_of_false (by norm_num) hc, rfl⟩

/-! ### C9 -/

theorem allOpt_isSome {α : Type} (f : α → Option Bool) :
    ∀ l : List α, (∀ a ∈ l, (f a).isSome) → (allOpt f l).isSome := by
  intro l
  induction l with
  | nil => intro _; rfl
  | cons x xs ih =>
    intro h
    have hx := h x (by simp)
    simp only [allOpt]
    rcases hfx : f x with _ | b
    · rw [hfx] at hx; simp at hx
    · cases b
      · simp
      · exact ih (fun a ha => h a (by simp [ha]))

/-- C9: `is_all_same_year` applied to the empty list returns `true`
without panicking (the `year_months[0]` index inside the closure is never
evaluated), and the function is total (never panics) on every input. -/
theorem is_all_same_year_total :
    is_all_same_year [] = some true
    ∧ ∀ l : List (Int × Nat), (is_all_same_year l).isSome := by
  refine ⟨rfl, fun l => ?_⟩
  cases l with
  | nil => rfl
  | cons x xs =>
    apply allOpt_isSome
    intro a _
    simp

/-! ### C2 and C4: tiling of month blocks -/

/-- Line `r` of a month block (the empty string past the end). -/
def lineOf (b : List String) (r : Nat) : String :=
  b.getD r ""

/-- Tiling as the spec describes it, for comparison with
`print_chunk_tree_month`: each complete chunk of 3 blocks contributes the
8 lines obtained by concatenating line `r` of its three blocks for
`r = 0..7`, plus one blank separator line when the chunk's 0-based index
is below 3; a trailing chunk of fewer than 3 blocks contributes nothing. -/
def tileSpec : Nat → List (List String) → List String
  | i, b1 :: b2 :: b3 :: rest =>
    (List.range 8).map (fun r => lineOf b1 r ++ lineOf b2 r ++ lineOf b3 r) ++
      ((if i < 3 then [""] else []) ++ tileSpec (i + 1) rest)
  | _, _ => []

/-- Group `j` of the tiled output of a 12-block calendar, as 8 concatenated
lines of blocks `3j`, `3j+1`, `3j+2`. -/
def chunkRows (cal : List (List String)) (j : Nat) : List String :=
  (List.range 8).map (fun r =>
    lineOf (cal.getD (3 * j) []) r ++ lineOf (cal.getD (3 * j + 1) []) r ++
      lineOf (cal.getD (3 * j + 2) []) r)

theorem string_eq_empty_of_length {s : String} (h : s.length = 0) : s = "" := by
  obtain ⟨data⟩ := s
  cases data with
  | nil => rfl
  | cons c cs => simp [String.length] at h

theorem append3_ne_empty {x y z : String} (hx : x ≠ "") : x ++ y ++ z ≠ "" := by
  intro h
  apply hx
  have hlen := congrArg String.length h
  rw [String.length_append, String.length_append] at hlen
  have h0 : String.length "" = 0 := rfl
  exact string_eq_empty_of_length (by omega)

theorem izip3_map_concat : ∀ (n : Nat) (m1 m2 m3 : List String),
    m1.length = n → m2.length = n → m3.length = n →
    (izip3 m1 m2 m3).map (fun t => t.1 ++ t.2.1 ++ t.2.2) =
      (List.range n).map (fun r => lineOf m1 r ++ lineOf m2 r ++ lineOf m3 r) := by
  intro n
  induction n with
  | zero =>
    intro m1 m2 m3 h1 h2 h3
    rw [List.length_eq_zero] at h1 h2 h3
    subst h1; subst h2; subst h3
    rfl
  | succ n ih =>
    intro m1 m2 m3 h1 h2 h3
    cases m1 with
    | nil => simp at h1
    | cons a as =>
    cases m2 with
    | nil => simp at h2
    | cons b bs =>
    cases m3 with
    | nil => simp at h3
    | cons c cs =>
    rw [List.range_succ_eq_map]
    simp only [izip3, List.map_cons]
    rw [ih as bs cs (by simpa using h1) (by simpa using h2) (by simpa using h3)]
    rw [List.map_map]
    congr 1

theorem pctmGo_eq_tileSpec :
    ∀ (cal : List (List String)), (∀ b ∈ cal, b.length = 8) →
      ∀ i, pctmGo i (chunks3 cal) = tileSpec i cal := by
  intro cal
  induction cal using chunks3.induct with
  | case1 => intro _ i; rfl
  | case2 b1 b2 b3 rest ih =>
    intro h i
    simp only [chunks3, pctmGo, tileSpec]
    rw [izip3_map_concat 8 b1 b2 b3 (h b1 (by simp)) (h b2 (by simp)) (h b3 (by simp))]
    rw [ih (fun b hb => h b (by simp [hb])) (i + 1)]
    simp [List.append_assoc]
  | case3 rest h1 h2 =>
    intro _ i
    cases rest with
    | nil => exact absurd rfl h1
    | cons x xs =>
      cases xs with
      | nil => simp [chunks3, pctmGo, tileSpec]
      | cons y ys =>
        cases ys with
        | nil => simp [chunks3, pctmGo, tileSpec]
        | cons z zs => exact absurd rfl (h2 x y z zs)

theorem pctmGo_append : ∀ (l1 l2 : List (List (List String))) (i : Nat),
    pctmGo i (l1 ++ l2) = pctmGo i l1 ++ pctmGo (i + l1.length) l2 := by
  intro l1
  induction l1 with
  | nil => intro l2 i; simp [pctmGo]
  | cons chunk rest ih =>
    intro l2 i
    show pctmGo i (chunk :: (rest ++ l2)) = _
    simp only [pctmGo, List.length_cons]
    rw [ih l2 (i + 1), List.append_assoc]
    have hidx : i + 1 + rest.length = i + (rest.length + 1) := by omega
    rw [hidx]

theorem chunks3_append : ∀ (cal ex : List (List String)), cal.length % 3 = 0 →
    chunks3 (cal ++ ex) = chunks3 cal ++ chunks3 ex := by
  intro cal
  induction cal using chunks3.induct with
  | case1 => intro ex _; rfl
  | case2 b1 b2 b3 rest ih =>
    intro ex h
    have h' : rest.length % 3 = 0 := by
      simp only [List.length_cons] at h
      omega
    show chunks3 (b1 :: b2 :: b3 :: (rest ++ ex)) = _
    simp only [chunks3]
    rw [ih ex h']
    rfl
  | case3 rest h1 h2 =>
    intro ex h
    exfalso
    cases rest with
    | nil => exact h1 rfl
    | cons x xs =>
      cases xs with
      | nil => simp at h
      | cons y ys =>
        cases ys with
        | nil => simp at h
        | cons z zs => exact h2 x y z zs rfl

theorem pctmGo_short (ex : List (List String)) (hex : ex.length < 3) :
    ∀ i, pctmGo i (chunks3 ex) = [] := by
  intro i
  cases ex with
  | nil => rfl
  | cons x xs =>
    cases xs with
    | nil => simp [chunks3, pctmGo]
    | cons y ys =>
      cases ys with
      | nil => simp [chunks3, pctmGo]
      | cons z zs =>
        simp only [List.length_cons] at hex
        omega

/-- C4: the compositor groups the blocks into chunks of 3; each complete
chunk yields 8 printed lines, line `r` being the concatenation of line `r`
of its three blocks in order, and a trailing chunk of fewer than 3 blocks
is silently dropped (appending up to 2 extra blocks changes nothing). -/
theorem print_chunk_tree_month_tiles :
    (∀ cal : List (List String), (∀ b ∈ cal, b.length = 8) →
        print_chunk_tree_month cal = tileSpec 0 cal)
    ∧ (∀ cal extra : List (List String), cal.length % 3 = 0 → extra.length < 3 →
        print_chunk_tree_month (cal ++ extra) = print_chunk_tree_month cal) := by
  constructor
  · intro cal h
    exact pctmGo_eq_tileSpec cal h 0
  · intro cal extra h1 h2
    unfold print_chunk_tree_month
    rw [chunks3_append cal extra h1, pctmGo_append, pctmGo_short extra h2, List.append_nil]

/-- Witness for C4: the theorem applied to a concrete calendar of 12
blocks of 8 lines plus 2 dropped extras. -/
theorem print_chunk_tree_month_tiles_witness :
    (∀ b ∈ List.replicate 12 (List.replicate 8 "x"), b.length = 8)
    ∧ (List.replicate 12 (List.replicate 8 "x")).length % 3 = 0
    ∧ (List.replicate 2 (List.replicate 8 "y")).length < 3
    ∧ print_chunk_tree_month (List.replicate 12 (List.replicate 8 "x")) =
        tileSpec 0 (List.replicate 12 (List.replicate 8 "x"))
    ∧ print_chunk_tree_month
          (List.replicate 12 (List.replicate 8 "x") ++ List.replicate 2 (List.replicate 8 "y")) =
        print_chunk_tree_month (List.replicate 12 (List.replicate 8 "x")) :=
  ⟨by decide, by decide, by decide,
    print_chunk_tree_month_tiles.1 (List.replicate 12 (List.replicate 8 "x")) (by decide),
    print_chunk_tree_month_tiles.2 (List.replicate 12 (List.replicate 8 "x"))
      (List.replicate 2 (List.replicate 8 "y")) (by decide) (by decide)⟩

theorem mem_izip3 {α : Type} : ∀ (as bs cs : List α) (t : α × α × α),
    t ∈ izip3 as bs cs → t.1 ∈ as ∧ t.2.1 ∈ bs ∧ t.2.2 ∈ cs := by
  intro as
  induction as with
  | nil => intro bs cs t ht; simp [izip3] at ht
  | cons a as ih =>
    intro bs cs t ht
    cases bs with
    | nil => simp [izip3] at ht
    | cons b bs =>
      cases cs with
      | nil => simp [izip3] at ht
      | cons c cs =>
        simp only [izip3, List.mem_cons] at ht
        rcases ht with rfl | ht
        · simp
        · have := ih bs cs t ht
          exact ⟨by simp [this.1], by simp [this.2.1], by simp [this.2.2]⟩

theorem count_triple_lines_zero (m1 m2 m3 : List String)
    (h : ∀ s, (s ∈ m1 ∨ s ∈ m2 ∨ s ∈ m3) → s ≠ "") :
    ((izip3 m1 m2 m3).map (fun t => t.1 ++ t.2.1 ++ t.2.2)).count "" = 0 := by
  rw [List.count_eq_zero]
  intro hmem
  rw [List.mem_map] at hmem
  obtain ⟨t, ht, heq⟩ := hmem
  exact append3_ne_empty (h t.1 (Or.inl (mem_izip3 m1 m2 m3 t ht).1)) heq

theorem mem_chunks3 : ∀ (cal : List (List String)) (chunk : List (List String)),
    chunk ∈ chunks3 cal → ∀ b ∈ chunk, b ∈ cal := by
  intro cal
  induction cal using chunks3.induct with
  | case1 => intro chunk hc; simp [chunks3] at hc
  | case2 b1 b2 b3 rest ih =>
    intro chunk hc b hb
    simp only [chunks3, List.mem_cons] at hc
    rcases hc with rfl | hc
    · rcases hb with _ | ⟨_, _ | ⟨_, _ | ⟨_, h⟩⟩⟩
      · simp
      · simp
      · simp
      · cases h
    · have := ih chunk hc b hb
      simp [this]
  | case3 rest h1 h2 =>
    intro chunk hc b hb
    cases rest with
    | nil => exact absurd rfl h1
    | cons x xs =>
      cases xs with
      | nil =>
        simp only [chunks3, List.mem_singleton] at hc
        subst hc
        exact hb
      | cons y ys =>
        cases ys with
        | nil =>
          simp only [chunks3, List.mem_singleton] at hc
          subst hc
          exact hb
        | cons z zs => exact absurd rfl (h2 x y z zs)

theorem count_pctmGo : ∀ (chunksL : List (List (List String))) (i : Nat),
    (∀ chunk ∈ chunksL, ∀ b ∈ chunk, ∀ s ∈ b, s ≠ "") →
    (pctmGo i chunksL).count "" ≤ 3 - i := by
  intro chunksL
  induction chunksL with
  | nil => intro i _; simp [pctmGo]
  | cons chunk rest ih =>
    intro i h
    have hrest := ih (i + 1) (fun c hc => h c (by simp [hc]))
    rcases chunk with _ | ⟨m1, _ | ⟨m2, _ | ⟨m3, _ | ⟨m4, t⟩⟩⟩⟩
    · simp only [pctmGo, List.nil_append]
      omega
    · simp only [pctmGo, List.nil_append]
      omega
    · simp only [pctmGo, List.nil_append]
      omega
    · simp only [pctmGo]
      rw [List.count_append, List.count_append]
      have hz := count_triple_lines_zero m1 m2 m3 (fun s hs => by
        rcases hs with hs | hs | hs
        · exact h [m1, m2, m3] (by simp) m1 (by simp) s hs
        · exact h [m1, m2, m3] (by simp) m2 (by simp) s hs
        · exact h [m1, m2, m3] (by simp) m3 (by simp) s hs)
      rw [hz]
      by_cases hi : i < 3
      · rw [if_pos hi]
        have hone : List.count "" [""] = 1 := by decide
        rw [hone]
        omega
      · rw [if_neg hi]
        simp only [List.count_nil]
        omega
    · simp only [pctmGo, List.nil_append]
      omega

theorem empty_not_mem_rows (x y z : List String) (hx : x.length = 8)
    (hxe : ∀ s ∈ x, s ≠ "") :
    "" ∉ (List.range 8).map (fun r => lineOf x r ++ lineOf y r ++ lineOf z r) := by
  intro hmem
  rw [List.mem_map] at hmem
  obtain ⟨r, hr, heq⟩ := hmem
  rw [List.mem_range] at hr
  have hx2 : lineOf x r ∈ x := by
    rw [lineOf, List.getD_eq_getElem x "" (by omega)]
    exact List.getElem_mem _
  exact append3_ne_empty (hxe _ hx2) heq

/-- C2: a blank separator line is emitted only for complete triples whose
0-based index is below 3, so at most 3 separators ever appear; tiling 12
blocks gives exactly 4 groups of 8 lines with exactly 3 blank separator
lines between them and none after the last group. -/
theorem print_chunk_separator_cap :
    (∀ cal : List (List String), (∀ b ∈ cal, ∀ s ∈ b, s ≠ "") →
        (print_chunk_tree_month cal).count "" ≤ 3)
    ∧ (∀ b1 b2 b3 b4 b5 b6 b7 b8 b9 b10 b11 b12 : List String,
        (∀ b ∈ [b1, b2, b3, b4, b5, b6, b7, b8, b9, b10, b11, b12], b.length = 8) →
        (∀ b ∈ [b1, b2, b3, b4, b5, b6, b7, b8, b9, b10, b11, b12], ∀ s ∈ b, s ≠ "") →
        (print_chunk_tree_month [b1, b2, b3, b4, b5, b6, b7, b8, b9, b10, b11, b12] =
            chunkRows [b1, b2, b3, b4, b5, b6, b7, b8, b9, b10, b11, b12] 0 ++ [""] ++
              chunkRows [b1, b2, b3, b4, b5, b6, b7, b8, b9, b10, b11, b12] 1 ++ [""] ++
              chunkRows [b1, b2, b3, b4, b5, b6, b7, b8, b9, b10, b11, b12] 2 ++ [""] ++
              chunkRows [b1, b2, b3, b4, b5, b6, b7, b8, b9, b10, b11, b12] 3)
        ∧ (∀ j, (chunkRows [b1, b2, b3, b4, b5, b6, b7, b8, b9, b10, b11, b12] j).length = 8)
        ∧ (∀ j, j ≤ 3 → "" ∉ chunkRows [b1, b2, b3, b4, b5, b6, b7, b8, b9, b10, b11, b12] j)
        ∧ (print_chunk_tree_month [b1, b2, b3, b4, b5, b6, b7, b8, b9, b10, b11, b12]).count ""
            = 3) := by
  constructor
  · intro cal h
    unfold print_chunk_tree_month
    have := count_pctmGo (chunks3 cal) 0 (fun chunk hc b hb s hs =>
      h b (mem_chunks3 cal chunk hc b hb) s hs)
    simpa using this
  · intro b1 b2 b3 b4 b5 b6 b7 b8 b9 b10 b11 b12 h8 hne
    have hc0 : chunkRows [b1, b2, b3, b4, b5, b6, b7, b8, b9, b10, b11, b12] 0 =
        (List.range 8).map (fun r => lineOf b1 r ++ lineOf b2 r ++ lineOf b3 r) := rfl
    have hc1 : chunkRows [b1, b2, b3, b4, b5, b6, b7, b8, b9, b10, b11, b12] 1 =
        (List.range 8).map (fun r => lineOf b4 r ++ lineOf b5 r ++ lineOf b6 r) := rfl
    have hc2 : chunkRows [b1, b2, b3, b4, b5, b6, b7, b8, b9, b10, b11, b12] 2 =
        (List.range 8).map (fun r => lineOf b7 r ++ lineOf b8 r ++ lineOf b9 r) := rfl
    have hc3 : chunkRows [b1, b2, b3, b4, b5, b6, b7, b8, b9, b10, b11, b12] 3 =
        (List.range 8).map (fun r => lineOf b10 r ++ lineOf b11 r ++ lineOf b12 r) := rfl
    have hn0 := empty_not_mem_rows b1 b2 b3 (h8 b1 (by simp)) (fun s hs => hne b1 (by simp) s hs)
    have hn1 := empty_not_mem_rows b4 b5 b6 (h8 b4 (by simp)) (fun s hs => hne b4 (by simp) s hs)
    have hn2 := empty_not_mem_rows b7 b8 b9 (h8 b7 (by simp)) (fun s hs => hne b7 (by simp) s hs)
    have hn3 := empty_not_mem_rows b10 b11 b12 (h8 b10 (by simp))
      (fun s hs => hne b10 (by simp) s hs)
    have hmain : print_chunk_tree_month [b1, b2, b3, b4, b5, b6, b7, b8, b9, b10, b11, b12] =
        chunkRows [b1, b2, b3, b4, b5, b6, b7, b8, b9, b10, b11, b12] 0 ++ [""] ++
          chunkRows [b1, b2, b3, b4, b5, b6, b7, b8, b9, b10, b11, b12] 1 ++ [""] ++
          chunkRows [b1, b2, b3, b4, b5, b6, b7, b8, b9, b10, b11, b12] 2 ++ [""] ++
          chunkRows [b1, b2, b3, b4, b5, b6, b7, b8, b9, b10, b11, b12] 3 := by
      have ht := pctmGo_eq_tileSpec [b1, b2, b3, b4, b5, b6, b7, b8, b9, b10, b11, b12] h8 0
      rw [print_chunk_tree_month, ht, hc0, hc1, hc2, hc3]
      simp [tileSpec, List.append_assoc]
    refine ⟨hmain, ?_, ?_, ?_⟩
    · intro j
      simp [chunkRows]
    · intro j hj
      interval_cases j
      · rw [hc0]; exact hn0
      · rw [hc1]; exact hn1
      · rw [hc2]; exact hn2
      · rw [hc3]; exact hn3
    · have hm0 : "" ∉ chunkRows [b1, b2, b3, b4, b5, b6, b7, b8, b9, b10, b11, b12] 0 := by
        rw [hc0]; exact hn0
      have hm1 : "" ∉ chunkRows [b1, b2, b3, b4, b5, b6, b7, b8, b9, b10, b11, b12] 1 := by
        rw [hc1]; exact hn1
      have hm2 : "" ∉ chunkRows [b1, b2, b3, b4, b5, b6, b7, b8, b9, b10, b11, b12] 2 := by
        rw [hc2]; exact hn2
      have hm3 : "" ∉ chunkRows [b1, b2, b3, b4, b5, b6, b7, b8, b9, b10, b11, b12] 3 := by
        rw [hc3]; exact hn3
      rw [hmain]
      simp only [List.count_append]
      rw [List.count_eq_zero.mpr hm0, List.count_eq_zero.mpr hm1,
        List.count_eq_zero.mpr hm2, List.count_eq_zero.mpr hm3]
      decide

/-- Witness for C2: the theorem's 12-block part applied to a concrete
calendar of 12 identical 8-line blocks. -/
theorem print_chunk_separator_cap_witness :
    (∀ b ∈ List.replicate 12 (List.replicate 8 "x"), ∀ s ∈ b, s ≠ "")
    ∧ (print_chunk_tree_month (List.replicate 12 (List.replicate 8 "x"))).count "" ≤ 3
    ∧ (print_chunk_tree_month
          [List.replicate 8 "x", List.replicate 8 "x", List.replicate 8 "x",
           List.replicate 8 "x", List.replicate 8 "x", List.replicate 8 "x",
           List.replicate 8 "x", List.replicate 8 "x", List.replicate 8 "x",
           List.replicate 8 "x", List.replicate 8 "x", List.replicate 8 "x"]).count "" = 3 :=
  ⟨by decide,
    print_chunk_separator_cap.1 (List.replicate 12 (List.replicate 8 "x")) (by decide),
    (print_chunk_separator_cap.2 (List.replicate 8 "x") (List.replicate 8 "x")
      (List.replicate 8 "x") (List.replicate 8 "x") (List.replicate 8 "x")
      (List.replicate 8 "x") (List.replicate 8 "x") (List.replicate 8 "x")
      (List.replicate 8 "x") (List.replicate 8 "x") (List.replicate 8 "x")
      (List.replicate 8 "x") (by decide) (by decide)).2.2.2⟩

/-! ### C3 -/

/-- C3: `parse_month` maps an in-range numeric string to its value,
rejects an out-of-range numeric string with an error naming the value, and
resolves a non-numeric string by case-insensitive prefix match against the
twelve month names, succeeding iff exactly one name matches; `"jan"` gives
1 and `"0"`, `"13"`, `"foo"` give errors naming the input verbatim. -/
theorem parse_month_spec :
    (∀ s n, parseU32 s = some n → 1 ≤ n → n ≤ 12 → parse_month s = Except.ok n)
    ∧ (∀ s n, parseU32 s = some n → ¬(1 ≤ n ∧ n ≤ 12) →
        parse_month s = Except.error ("month \"" ++ s ++ "\" not in the range 1 through 12"))
    ∧ (∀ s, parseU32 s = none → (monthMatches (toLowerStr s)).length = 1 →
        parse_month s = Except.ok ((monthMatches (toLowerStr s)).getD 0 0))
    ∧ (∀ s, parseU32 s = none → (monthMatches (toLowerStr s)).length ≠ 1 →
        parse_month s = Except.error ("Invalid month \"" ++ s ++ "\""))
    ∧ parse_month "jan" = Except.ok 1
    ∧ parse_month "0" = Except.error "month \"0\" not in the range 1 through 12"
    ∧ parse_month "13" = Except.error "month \"13\" not in the range 1 through 12"
    ∧ parse_month "foo" = Except.error "Invalid month \"foo\"" := by
  refine ⟨?_, ?_, ?_, ?_, by decide, by decide, by decide, by decide⟩
  · intro s n h h1 h2
    simp only [parse_month, h]
    rw [if_pos ⟨h1, h2⟩]
  · intro s n h hno
    simp only [parse_month, h]
    rw [if_neg hno]
  · intro s h h1
    simp only [parse_month, h]
    rw [if_pos h1]
  · intro s h h1
    simp only [parse_month, h]
    rw [if_neg h1]

/-- Witness for C3: the theorem applied at the concrete input `"5"`. -/
theorem parse_month_spec_witness :
    parseU32 "5" = some 5 ∧ 1 ≤ 5 ∧ 5 ≤ 12 ∧ parse_month "5" = Except.ok 5 :=
  ⟨by decide, by norm_num, by norm_num,
    parse_month_spec.1 "5" 5 (by decide) (by norm_num) (by norm_num)⟩

/-! ### C6: month shifting -/

theorem leaps_pred (y : Int) :
    leaps y = leaps (y - 1) + (if isLeap y = true then 1 else 0) := by
  by_cases h : isLeap y = true
  · rw [if_pos h]
    have hP := (isLeap_iff y).mp h
    simp only [leaps]
    omega
  · rw [if_neg h]
    have hP : ¬(y % 4 = 0 ∧ (y % 100 ≠ 0 ∨ y % 400 = 0)) :=
      fun hc => h ((isLeap_iff y).mpr hc)
    simp only [leaps]
    omega

theorem get_days_eq_monthLen (y : Int) (m : Nat) (h1 : 1 ≤ m) (h2 : m ≤ 12) :
    get_days_from_ym y m = (monthLen y m : Int) := by
  cases hL : isLeap y with
  | false =>
    have hP : ¬(y % 4 = 0 ∧ (y % 100 ≠ 0 ∨ y % 400 = 0)) :=
      fun hc => absurd ((isLeap_iff y).mpr hc) (by simp [hL])
    interval_cases m <;>
      simp [get_days_from_ym, rataDie, cumDays, cumDaysNL, monthLen, leaps, hL] <;>
      omega
  | true =>
    have hP := (isLeap_iff y).mp hL
    interval_cases m <;>
      simp [get_days_from_ym, rataDie, cumDays, cumDaysNL, monthLen, leaps, hL] <;>
      omega

theorem ofMonthsTotal_self (y : Int) (m : Nat) (h1 : 1 ≤ m) (h2 : m ≤ 12) :
    ofMonthsTotal (monthsTotal y m) 1 = ⟨y, m, 1⟩ := by
  have hy : (12 * y + ((m : Int) - 1)) / 12 = y := by omega
  have hm : ((12 * y + ((m : Int) - 1)) % 12).toNat + 1 = m := by omega
  simp only [ofMonthsTotal, monthsTotal, hy, hm]
  have hmin : min 1 (monthLen y m) = 1 := by
    have := monthLen_pos y m h1 h2
    omega
  rw [hmin]

/-- C6: with `n = 0`, `get_before_month` returns the first day and
`get_after_month` the last day of the anchor month, and shifting by `n`
months rolls over year boundaries correctly in both directions, as on the
four spec examples. -/
theorem shift_months_spec :
    (∀ (y : Int) (m : Nat), 1 ≤ m → m ≤ 12 → get_before_month 0 y m = ⟨y, m, 1⟩)
    ∧ (∀ (y : Int) (m : Nat), 1 ≤ m → m ≤ 12 →
        get_after_month 0 y m = ⟨y, m, monthLen y m⟩)
    ∧ get_before_month 1 2022 1 = ⟨2021, 12, 1⟩
    ∧ get_before_month 6 2022 12 = ⟨2022, 6, 1⟩
    ∧ get_after_month 1 2022 6 = ⟨2022, 7, 31⟩
    ∧ get_after_month 12 2022 2 = ⟨2023, 2, 28⟩ := by
  refine ⟨?_, ?_, by decide, by decide, by decide, by decide⟩
  · intro y m h1 h2
    have h := ofMonthsTotal_self y m h1 h2
    have hz : monthsTotal y m - ((0 : Nat) : Int) = monthsTotal y m := by simp
    simp only [get_before_month, hz]
    exact h
  · intro y m h1 h2
    have h := ofMonthsTotal_self y m h1 h2
    have hd := get_days_eq_monthLen y m h1 h2
    have hz : monthsTotal y m + ((0 : Nat) : Int) = monthsTotal y m := by simp
    simp only [get_after_month, hz, h]
    rw [hd]
    simp

/-- Witness for C6: the theorem applied at year 2022, month 5. -/
theorem shift_months_spec_witness :
    1 ≤ 5 ∧ 5 ≤ 12 ∧ get_before_month 0 2022 5 = ⟨2022, 5, 1⟩
    ∧ get_after_month 0 2022 5 = ⟨2022, 5, monthLen 2022 5⟩ :=
  ⟨by norm_num, by norm_num, shift_months_spec.1 2022 5 (by norm_num) (by norm_num),
    shift_months_spec.2.1 2022 5 (by norm_num) (by norm_num)⟩

/-! ### Chronological order and day arithmetic -/

theorem cum_add_day_le (y : Int) (m dd : Nat) (h1 : 1 ≤ m) (h2 : m ≤ 12)
    (h3 : dd ≤ monthLen y m) :
    (cumDays y m : Int) + dd ≤ 365 + (if isLeap y = true then 1 else 0) := by
  cases hL : isLeap y <;> interval_cases m <;>
    simp [cumDays, cumDaysNL, monthLen, hL] at h3 ⊢ <;> omega

theorem cum_lt (y : Int) (m1 m2 d1 d2 : Nat) (h1 : 1 ≤ m1) (hm : m1 < m2) (h2 : m2 ≤ 12)
    (hd1 : d1 ≤ monthLen y m1) (hd2 : 1 ≤ d2) :
    (cumDays y m1 : Int) + d1 < (cumDays y m2 : Int) + d2 := by
  have hup : m1 ≤ 11 := by omega
  cases hL : isLeap y <;> interval_cases m1 <;> interval_cases m2 <;>
    simp [cumDays, cumDaysNL, monthLen, hL] at hd1 ⊢ <;> omega

theorem rataDie_lt_of_lexLt (a b : Date) (ha : Valid a) (hb : Valid b) (h : LexLt a b) :
    rataDie a < rataDie b := by
  obtain ⟨y1, m1, d1⟩ := a
  obtain ⟨y2, m2, d2⟩ := b
  rw [Valid_mk] at ha hb
  obtain ⟨ha1, ha2, ha3, ha4⟩ := ha
  obtain ⟨hb1, hb2, hb3, hb4⟩ := hb
  simp only [LexLt, year_mk, month_mk, day_mk] at h
  rcases h with hy | ⟨hy, h'⟩
  · have hbound := cum_add_day_le y1 m1 d1 ha1 ha2 ha4
    have hstep := leaps_pred y1
    have hmono : leaps y1 ≤ leaps (y2 - 1) := by
      simp only [leaps]
      omega
    have hcum2 : (0 : Int) ≤ (cumDays y2 m2 : Int) := Int.natCast_nonneg _
    simp only [rataDie, year_mk, month_mk, day_mk]
    cases hL : isLeap y1 <;> (simp [hL] at hbound hstep; omega)
  · rcases h' with hm | ⟨hm, hd⟩
    · subst hy
      have := cum_lt y1 m1 m2 d1 d2 ha1 hm hb2 ha4 hb3
      simp only [rataDie, year_mk, month_mk, day_mk]
      omega
    · subst hy
      subst hm
      simp only [rataDie, year_mk, month_mk, day_mk]
      omega

theorem lexLt_trichotomy (a b : Date) : LexLt a b ∨ a = b ∨ LexLt b a := by
  obtain ⟨y1, m1, d1⟩ := a
  obtain ⟨y2, m2, d2⟩ := b
  simp only [LexLt, Date.mk.injEq, year_mk, month_mk, day_mk]
  omega

theorem dateLe_iff (a b : Date) : dateLe a b = true ↔ (LexLt a b ∨ a = b) := by
  obtain ⟨y1, m1, d1⟩ := a
  obtain ⟨y2, m2, d2⟩ := b
  simp only [dateLe, LexLt, Date.mk.injEq, year_mk, month_mk, day_mk, Bool.or_eq_true,
    Bool.and_eq_true, decide_eq_true_eq, beq_iff_eq]
  omega

theorem lexLt_of_rataDie_lt (a b : Date) (ha : Valid a) (hb : Valid b)
    (h : rataDie a < rataDie b) : LexLt a b := by
  rcases lexLt_trichotomy a b with hlt | rfl | hgt
  · exact hlt
  · omega
  · exact absurd (rataDie_lt_of_lexLt b a hb ha hgt) (by omega)

theorem rataDie_inj (a b : Date) (ha : Valid a) (hb : Valid b)
    (h : rataDie a = rataDie b) : a = b := by
  rcases lexLt_trichotomy a b with hlt | rfl | hgt
  · exact absurd (rataDie_lt_of_lexLt a b ha hb hlt) (by omega)
  · rfl
  · exact absurd (rataDie_lt_of_lexLt b a hb ha hgt) (by omega)

theorem dateLe_of_rataDie_le (a b : Date) (ha : Valid a) (hb : Valid b)
    (h : rataDie a ≤ rataDie b) : dateLe a b = true := by
  rcases lexLt_trichotomy a b with hlt | rfl | hgt
  · exact (dateLe_iff a b).mpr (Or.inl hlt)
  · exact (dateLe_iff a a).mpr (Or.inr rfl)
  · exact absurd (rataDie_lt_of_lexLt b a hb ha hgt) (by omega)

theorem rataDie_le_of_dateLe (a b : Date) (ha : Valid a) (hb : Valid b)
    (h : dateLe a b = true) : rataDie a ≤ rataDie b := by
  rcases (dateLe_iff a b).mp h with hlt | rfl
  · exact le_of_lt (rataDie_lt_of_lexLt a b ha hb hlt)
  · exact le_refl _

theorem rataDie_succ (d : Date) (h : Valid d) : rataDie (succDate d) = rataDie d + 1 := by
  obtain ⟨y, m, dd⟩ := d
  rw [Valid_mk] at h
  obtain ⟨h1, h2, h3, h4⟩ := h
  have hs : succDate ⟨y, m, dd⟩ =
      if dd < monthLen y m then ⟨y, m, dd + 1⟩
      else if m < 12 then ⟨y, m + 1, 1⟩ else ⟨y + 1, 1, 1⟩ := rfl
  rw [hs]
  by_cases hlt : dd < monthLen y m
  · rw [if_pos hlt]
    simp only [rataDie]
    push_cast
    ring
  · rw [if_neg hlt]
    have hdd : dd = monthLen y m := by omega
    by_cases hm : m < 12
    · rw [if_pos hm]
      subst hdd
      cases hL : isLeap y with
      | false =>
        have hP : ¬(y % 4 = 0 ∧ (y % 100 ≠ 0 ∨ y % 400 = 0)) :=
          fun hc => absurd ((isLeap_iff y).mpr hc) (by simp [hL])
        interval_cases m <;>
          simp [rataDie, cumDays, cumDaysNL, monthLen, leaps, hL] <;> omega
      | true =>
        have hP := (isLeap_iff y).mp hL
        interval_cases m <;>
          simp [rataDie, cumDays, cumDaysNL, monthLen, leaps, hL] <;> omega
    · rw [if_neg hm]
      have hm12 : m = 12 := by omega
      subst hm12
      have hdd31 : dd = 31 := by simpa [monthLen] using hdd
      subst hdd31
      cases hL : isLeap y with
      | false =>
        have hP : ¬(y % 4 = 0 ∧ (y % 100 ≠ 0 ∨ y % 400 = 0)) :=
          fun hc => absurd ((isLeap_iff y).mpr hc) (by simp [hL])
        simp [rataDie, cumDays, cumDaysNL, monthLen, leaps, hL]
        omega
      | true =>
        have hP := (isLeap_iff y).mp hL
        simp [rataDie, cumDays, cumDaysNL, monthLen, leaps, hL]
        omega

theorem succ_valid (d : Date) (h : Valid d) : Valid (succDate d) := by
  obtain ⟨y, m, dd⟩ := d
  rw [Valid_mk] at h
  obtain ⟨h1, h2, h3, h4⟩ := h
  have hs : succDate ⟨y, m, dd⟩ =
      if dd < monthLen y m then ⟨y, m, dd + 1⟩
      else if m < 12 then ⟨y, m + 1, 1⟩ else ⟨y + 1, 1, 1⟩ := rfl
  rw [hs]
  by_cases hlt : dd < monthLen y m
  · rw [if_pos hlt, Valid_mk]
    exact ⟨h1, h2, by omega, by omega⟩
  · rw [if_neg hlt]
    by_cases hm : m < 12
    · rw [if_pos hm, Valid_mk]
      exact ⟨by omega, by omega, le_refl 1, monthLen_pos y (m + 1) (by omega) (by omega)⟩
    · rw [if_neg hm, Valid_mk]
      exact ⟨by norm_num, by norm_num, le_refl 1, by simp [monthLen]⟩

/-! ### The day stream of `get_year_month` (C7 and C10) -/

theorem dayStream_succ_left (s : Date) (i : Nat) :
    dayStream s (i + 1) = dayStream (succDate s) i :=
  Function.iterate_succ_apply succDate i s

theorem dayStream_valid (s : Date) (hs : Valid s) : ∀ i, Valid (dayStream s i) := by
  suffices H : ∀ (i : Nat) (t : Date), Valid t → Valid (dayStream t i) from fun i => H i s hs
  intro i
  induction i with
  | zero => intro t ht; exact ht
  | succ i ih =>
    intro t ht
    rw [dayStream_succ_left]
    exact ih _ (succ_valid t ht)

theorem rataDie_dayStream (s : Date) (hs : Valid s) :
    ∀ i, rataDie (dayStream s i) = rataDie s + i := by
  suffices H : ∀ (i : Nat) (t : Date), Valid t → rataDie (dayStream t i) = rataDie t + i from
    fun i => H i s hs
  intro i
  induction i with
  | zero =>
    intro t _
    show rataDie t = rataDie t + ((0 : Nat) : Int)
    simp
  | succ i ih =>
    intro t ht
    rw [dayStream_succ_left, ih (succDate t) (succ_valid t ht), rataDie_succ t ht]
    push_cast
    ring

theorem dayStream_hits (d : Date) (hd : Valid d) :
    ∀ (k : Nat) (s : Date), Valid s → rataDie s ≤ rataDie d →
      (rataDie d - rataDie s).toNat = k → dayStream s k = d := by
  intro k
  induction k with
  | zero =>
    intro s hs hle hk
    have heq : rataDie s = rataDie d := by omega
    exact rataDie_inj s d hs hd heq
  | succ k ih =>
    intro s hs hle hk
    have h1 := rataDie_succ s hs
    have h2 := succ_valid s hs
    have h3 : rataDie (succDate s) ≤ rataDie d := by omega
    have h4 : (rataDie d - rataDie (succDate s)).toNat = k := by omega
    rw [dayStream_succ_left]
    exact ih (succDate s) h2 h3 h4

theorem takeWhile_prefix_stable {α : Type} (p : α → Bool) (f : Nat → α) (n k : Nat)
    (hfail : p (f n) = false) :
    (List.map f (List.range (n + k))).takeWhile p = (List.map f (List.range n)).takeWhile p := by
  rw [List.range_add, List.map_append, List.takeWhile_append]
  split
  next h =>
    have hfull : (List.map f (List.range n)).takeWhile p = List.map f (List.range n) :=
      List.Sublist.eq_of_length (List.takeWhile_sublist p) h
    rw [hfull]
    cases k with
    | zero => simp
    | succ k2 =>
      rw [List.range_succ_eq_map]
      simp only [List.map_cons, List.map_map, Function.comp, Nat.add_zero]
      rw [List.takeWhile_cons, if_neg (by rw [hfail]; exact Bool.false_ne_true)]
      simp
  next h => rfl

theorem calendarUpTo_full (s e : Date) (hs : Valid s) (he : Valid e) :
    calendarUpTo s e (fuelFor s e) =
      (List.range (fuelFor s e)).map (fun i => dayStream s i) := by
  rw [calendarUpTo]
  apply List.takeWhile_eq_self_iff.mpr
  intro x hx
  rw [List.mem_map] at hx
  obtain ⟨i, hi, rfl⟩ := hx
  rw [List.mem_range, fuelFor] at hi
  apply dateLe_of_rataDie_le _ _ (dayStream_valid s hs i) he
  rw [rataDie_dayStream s hs i]
  omega

theorem stream_fails_at_fuel (s e : Date) (hs : Valid s) (he : Valid e) :
    dateLe (dayStream s (fuelFor s e)) e = false := by
  cases hb : dateLe (dayStream s (fuelFor s e)) e with
  | false => rfl
  | true =>
    exfalso
    have hr := rataDie_le_of_dateLe _ e (dayStream_valid s hs _) he hb
    rw [rataDie_dayStream s hs] at hr
    rw [fuelFor] at hr
    omega

theorem calendarUpTo_stable (s e : Date) (hs : Valid s) (he : Valid e) :
    ∀ fuel, fuelFor s e ≤ fuel → calendarUpTo s e fuel = calendarUpTo s e (fuelFor s e) := by
  intro fuel hf
  obtain ⟨k, rfl⟩ := Nat.exists_eq_add_of_le hf
  exact takeWhile_prefix_stable (fun d => dateLe d e) (fun i => dayStream s i)
    (fuelFor s e) k (stream_fails_at_fuel s e hs he)

/-- C10: `get_year_month` terminates on every pair of valid input dates:
the `take_while` bound cuts the unbounded day enumeration off after
`fuelFor` days (enlarging the fuel never changes the collected calendar),
and when `start_date > end_date` the result is the empty list. -/
theorem get_year_month_terminating :
    (∀ s e : Date, Valid s → Valid e →
        ∀ fuel, fuelFor s e ≤ fuel → calendarUpTo s e fuel = calendarUpTo s e (fuelFor s e))
    ∧ (∀ s e : Date, Valid s → Valid e → dateLe s e = false → get_year_month s e = []) := by
  constructor
  · intro s e hs he fuel hf
    exact calendarUpTo_stable s e hs he fuel hf
  · intro s e hs he hlt
    have hr : rataDie e < rataDie s := by
      by_contra hc
      push_neg at hc
      have := dateLe_of_rataDie_le s e hs he hc
      rw [hlt] at this
      exact Bool.false_ne_true this
    have hf0 : fuelFor s e = 0 := by
      rw [fuelFor]
      omega
    rw [get_year_month, hf0]
    rfl

/-- Witness for C10: the theorem applied at concrete dates, in both the
stabilisation direction and the `start > end` direction. -/
theorem get_year_month_terminating_witness :
    Valid ⟨2024, 3, 1⟩ ∧ Valid ⟨2024, 3, 2⟩ ∧ Valid ⟨2024, 5, 1⟩ ∧ Valid ⟨2024, 4, 1⟩
    ∧ fuelFor ⟨2024, 3, 1⟩ ⟨2024, 3, 2⟩ ≤ 10
    ∧ dateLe ⟨2024, 5, 1⟩ ⟨2024, 4, 1⟩ = false
    ∧ calendarUpTo ⟨2024, 3, 1⟩ ⟨2024, 3, 2⟩ 10 =
        calendarUpTo ⟨2024, 3, 1⟩ ⟨2024, 3, 2⟩ (fuelFor ⟨2024, 3, 1⟩ ⟨2024, 3, 2⟩)
    ∧ get_year_month ⟨2024, 5, 1⟩ ⟨2024, 4, 1⟩ = [] :=
  ⟨by decide, by decide, by decide, by decide, by decide, by decide,
    get_year_month_terminating.1 ⟨2024, 3, 1⟩ ⟨2024, 3, 2⟩ (by decide) (by decide) 10 (by decide),
    get_year_month_terminating.2 ⟨2024, 5, 1⟩ ⟨2024, 4, 1⟩ (by decide) (by decide) (by decide)⟩

theorem dayStream_lexLt (s : Date) (hs : Valid s) {i j : Nat} (hij : i < j) :
    LexLt (dayStream s i) (dayStream s j) := by
  apply lexLt_of_rataDie_lt _ _ (dayStream_valid s hs i) (dayStream_valid s hs j)
  rw [rataDie_dayStream s hs, rataDie_dayStream s hs]
  omega

set_option maxRecDepth 100000 in
/-- C7: for `start_date ≤ end_date`, `get_year_month` returns exactly the
(year, month) pairs whose first-of-month day lies in the inclusive range,
in chronological order and without duplicates; in particular the span
2024-01-01 to 2024-12-31 yields the pairs (2024, 1) … (2024, 12) in
order. -/
theorem get_year_month_spec :
    (∀ s e : Date, Valid s → Valid e → dateLe s e = true →
        ((∀ (y : Int) (m : Nat), (y, m) ∈ get_year_month s e ↔
            (Valid ⟨y, m, 1⟩ ∧ dateLe s ⟨y, m, 1⟩ = true ∧ dateLe ⟨y, m, 1⟩ e = true))
          ∧ (get_year_month s e).Pairwise (fun p q => p.1 < q.1 ∨ (p.1 = q.1 ∧ p.2 < q.2))
          ∧ (get_year_month s e).Nodup))
    ∧ get_year_month ⟨2024, 1, 1⟩ ⟨2024, 12, 31⟩ =
        [(2024, 1), (2024, 2), (2024, 3), (2024, 4), (2024, 5), (2024, 6), (2024, 7),
         (2024, 8), (2024, 9), (2024, 10), (2024, 11), (2024, 12)] := by
  constructor
  · intro s e hs he hse
    have hfull := calendarUpTo_full s e hs he
    have hpw : (get_year_month s e).Pairwise
        (fun p q => p.1 < q.1 ∨ (p.1 = q.1 ∧ p.2 < q.2)) := by
      unfold get_year_month
      rw [hfull, List.pairwise_map]
      have hstream : ((List.range (fuelFor s e)).map (fun i => dayStream s i)).Pairwise
          LexLt := by
        rw [List.pairwise_map]
        exact (List.pairwise_lt_range _).imp (fun hij => dayStream_lexLt s hs hij)
      have hfil := hstream.filter (fun d => d.day == 1)
      apply List.Pairwise.imp_of_mem ?_ hfil
      intro a b ha hb hab
      rw [List.mem_filter] at ha hb
      have hda : a.day = 1 := by simpa using ha.2
      have hdb : b.day = 1 := by simpa using hb.2
      rcases hab with hy | ⟨hy, hm | ⟨hm, hd⟩⟩
      · exact Or.inl hy
      · exact Or.inr ⟨hy, hm⟩
      · rw [hda, hdb] at hd
        omega
    refine ⟨?_, hpw, ?_⟩
    · intro y m
      constructor
      · intro hmem
        unfold get_year_month at hmem
        rw [hfull] at hmem
        rw [List.mem_map] at hmem
        obtain ⟨d0, hd0, heq⟩ := hmem
        rw [List.mem_filter] at hd0
        obtain ⟨hd0mem, hd0day⟩ := hd0
        rw [List.mem_map] at hd0mem
        obtain ⟨i, hi, rfl⟩ := hd0mem
        rw [List.mem_range, fuelFor] at hi
        have hv := dayStream_valid s hs i
        have hr := rataDie_dayStream s hs i
        have hday : (dayStream s i).day = 1 := by simpa using hd0day
        have hy : (dayStream s i).year = y := congrArg Prod.fst heq
        have hm : (dayStream s i).month = m := congrArg Prod.snd heq
        have hde : dayStream s i = ⟨y, m, 1⟩ := by
          have hself : dayStream s i =
              ⟨(dayStream s i).year, (dayStream s i).month, (dayStream s i).day⟩ := rfl
          rw [hself, hy, hm, hday]
        have hv1 : Valid ⟨y, m, 1⟩ := by
          rw [← hde]
          exact hv
        refine ⟨hv1, ?_, ?_⟩
        · apply dateLe_of_rataDie_le s _ hs hv1
          rw [← hde, hr]
          omega
        · apply dateLe_of_rataDie_le _ e hv1 he
          rw [← hde, hr]
          omega
      · rintro ⟨hv1, hsle, hlee⟩
        have hrs := rataDie_le_of_dateLe s _ hs hv1 hsle
        have hre := rataDie_le_of_dateLe _ e hv1 he hlee
        have hk := dayStream_hits ⟨y, m, 1⟩ hv1
          ((rataDie ⟨y, m, 1⟩ - rataDie s).toNat) s hs hrs rfl
        unfold get_year_month
        rw [hfull, List.mem_map]
        refine ⟨⟨y, m, 1⟩, ?_, rfl⟩
        rw [List.mem_filter]
        refine ⟨?_, by simp⟩
        rw [List.mem_map]
        refine ⟨(rataDie ⟨y, m, 1⟩ - rataDie s).toNat, ?_, hk⟩
        rw [List.mem_range, fuelFor]
        omega
    · exact hpw.imp (fun {p q} h => by
        rintro rfl
        rcases h with h | ⟨_, h⟩ <;> exact absurd h (by omega))
  · decide

/-- Witness for C7: the theorem applied at the concrete year-spanning
range 2024-11-01 to 2025-01-31. -/
theorem get_year_month_spec_witness :
    Valid ⟨2024, 11, 1⟩ ∧ Valid ⟨2025, 1, 31⟩
    ∧ dateLe ⟨2024, 11, 1⟩ ⟨2025, 1, 31⟩ = true
    ∧ ((2024, 12) ∈ get_year_month ⟨2024, 11, 1⟩ ⟨2025, 1, 31⟩ ↔
        (Valid ⟨2024, 12, 1⟩ ∧ dateLe ⟨2024, 11, 1⟩ ⟨2024, 12, 1⟩ = true
          ∧ dateLe ⟨2024, 12, 1⟩ ⟨2025, 1, 31⟩ = true))
    ∧ (get_year_month ⟨2024, 11, 1⟩ ⟨2025, 1, 31⟩).Nodup :=
  ⟨by decide, by decide, by decide,
    (get_year_month_spec.1 ⟨2024, 11, 1⟩ ⟨2025, 1, 31⟩ (by decide) (by decide)
      (by decide)).1 2024 12,
    (get_year_month_spec.1 ⟨2024, 11, 1⟩ ⟨2025, 1, 31⟩ (by decide) (by decide)
      (by decide)).2.2⟩

/-! ### C1 -/

/-- C1 (falsified by the code): rendering May 2020 with `today =
2020-05-31` — the highlighted day falls in a trailing week of fewer than 7
cells — produces a last line whose display width is 14, not 22: the ANSI
escape codes are counted by Rust's `{:width$}` padding, so the padding to
width 20 is skipped short.  All other lines keep width 22 and the block
still has 8 lines. -/
theorem format_month_highlight_width_bug :
    (format_month 2020 5 true ⟨2020, 5, 31⟩).map displayWidth =
      [22, 22, 22, 22, 22, 22, 22, 14]
    ∧ (format_month 2020 5 true ⟨2020, 5, 31⟩).getD 7 "" =
        "\x1b[7m31\x1b[0m            " := by
  constructor
  · decide
  · decide

/-! ### C8 -/

/-- C8: a rendered day cell carries the reverse-video emphasis (the escape
codes emitted around the 2-character numeral) iff `today`'s year, month
and day all equal the (year, month, day) being rendered; rendering April
2021 with `today = 2021-04-07` highlights exactly the cell for day 7. -/
theorem dayCell_highlight_iff :
    (∀ (y : Int) (m : Nat) (t : Date) (d : Nat),
        dayCell y m t d = if t = ⟨y, m, d⟩ then hl (fmt2 d) else fmt2 d)
    ∧ format_month 2021 4 true ⟨2021, 4, 7⟩ =
        ["     April 2021       ",
         "Su Mo Tu We Th Fr Sa  ",
         "             1  2  3  ",
         " 4  5  6 \x1b[7m 7\x1b[0m  8  9 10  ",
         "11 12 13 14 15 16 17  ",
         "18 19 20 21 22 23 24  ",
         "25 26 27 28 29 30     ",
         "                      "] := by
  constructor
  · intro y m t d
    obtain ⟨ty, tm, td⟩ := t
    by_cases h : (⟨ty, tm, td⟩ : Date) = ⟨y, m, d⟩
    · rw [if_pos h]
      injection h with h1 h2 h3
      subst h1; subst h2; subst h3
      simp [dayCell]
    · rw [if_neg h]
      simp only [dayCell]
      rw [if_neg]
      simp only [Bool.and_eq_true, beq_iff_eq]
      rintro ⟨⟨hy, hm⟩, hd⟩
      exact h (by rw [Date.mk.injEq]; exact ⟨hy.symm, hm.symm, hd.symm⟩)
  · decide

end Calr
